import Mathlib

/-!
Verification of the go-try workspace manager core
(repository malcolm-alex-dev/go-try).

The development shallowly embeds the Go sources:

* internal/workspace (Scan, sqrt, Create, uniqueName, Delete, DatePrefix)
* internal/workspace/clone.go (ParseGitURL, IsGitURL, CloneDirName)
* internal/tui (the selector state machine: Model, handleKey,
  handleSelect, handleCreateNew, handleDelete, handleDeleteConfirmKey,
  Update)

Filesystem access (os.ReadDir, os.Stat, filepath.Abs,
filepath.EvalSymlinks) is modelled by explicit oracle functions passed
as parameters, so that each theorem quantifies over every possible
filesystem behaviour.  Go float64 arithmetic is modelled by exact
rationals: the scoring code uses only +, -, *, / and a handwritten
Newton iteration, all of which are mirrored term by term over Rat.
Go time.Time values are modelled as rational timestamps measured in
hours, so that time.Duration.Hours() becomes plain subtraction.
-/

namespace GoTry

/-! ## Directory catalog (internal/workspace/workspace.go) -/

/-- An entry of the tries folder, mirroring struct Entry:
Name (basename), Path (full path), ModTime, BaseScore. -/
structure Entry where
  Name : String
  Path : String
  ModTime : Rat
  BaseScore : Rat
deriving DecidableEq

/-- Outcome classification for os.ReadDir: the Go code distinguishes
errors satisfying os.IsNotExist from all other errors. -/
inductive ReadDirErr where
  | notExist
  | other (msg : String)
deriving DecidableEq

/-- Result of os.DirEntry.Info(): modelled as the modification time
when the call succeeds. -/
structure FileInfo where
  modTime : Rat
deriving DecidableEq

/-- One os.DirEntry as seen by Scan: a name, the IsDir flag, and the
result of the Info() call (none models an Info() error). -/
structure DirEnt where
  name : String
  isDir : Bool
  info : Option FileInfo
deriving DecidableEq

/-- filepath.Join(basePath, name) for the already-clean path segments
the program produces (Join additionally cleans its result, which is the
identity on such inputs). -/
def joinPath (base name : String) : String :=
  if base = "" then name else base ++ "/" ++ name

/-- Character-level test that s begins with p, modelling
strings.HasPrefix(s, p) (String.startsWith of the standard library is
byte-position based and does not reduce inside the kernel, so the
embedding uses this structurally recursive equivalent). -/
def strLeads : List Char → List Char → Bool
  | _, [] => true
  | [], _ :: _ => false
  | a :: s, b :: p => a = b && strLeads s p

/-- strings.HasPrefix(s, p). -/
def strStartsWith (s p : String) : Bool := strLeads s.data p.data

/-- strings.TrimSpace: drop leading and trailing whitespace
(space, tab, carriage return, newline). -/
def goTrim (s : String) : String :=
  ⟨((s.data.dropWhile Char.isWhitespace).reverse.dropWhile Char.isWhitespace).reverse⟩

/-- strings.ReplaceAll(s, a-single-space, a-dash): a character map,
because the pattern is a single character. -/
def goReplaceSpaces (s : String) : String :=
  ⟨s.data.map (fun c => if c = ' ' then '-' else c)⟩

/-- The anchored regular expression match used by Scan:
regexp.MustCompile of four digits, dash, two digits, dash, two digits,
dash, applied with MatchString (anchored at the start by the caret). -/
def dateStamped (s : String) : Bool :=
  match s.data with
  | y1 :: y2 :: y3 :: y4 :: '-' :: m1 :: m2 :: '-' :: d1 :: d2 :: '-' :: _ =>
      y1.isDigit && y2.isDigit && y3.isDigit && y4.isDigit &&
      m1.isDigit && m2.isDigit && d1.isDigit && d2.isDigit
  | _ => false

/-- The body of the for-loop of func sqrt: ten Newton iterations
z = z - (z*z-x)/(2*z), modelled exactly over the rationals. -/
def newtonLoop (x : Rat) : Nat → Rat → Rat
  | 0, z => z
  | n + 1, z => newtonLoop x n (z - (z * z - x) / (2 * z))

/-- func sqrt(x float64) from workspace.go: returns 0 for
non-positive input, otherwise runs ten Newton iterations starting
from x/2. -/
def sqrtGo (x : Rat) : Rat :=
  if x < 0 then 0
  else if x = 0 then 0
  else newtonLoop x 10 (x / 2)

/-- Construction of one Entry inside Scan: hours since modification,
base score 3.0/sqrt(hours+1), +2.0 bonus for date-stamped names. -/
def mkEntry (basePath : String) (now : Rat) (name : String) (fi : FileInfo) : Entry :=
  let hoursSinceAccess := now - fi.modTime
  let base := 3 / sqrtGo (hoursSinceAccess + 1)
  { Name := name
    Path := joinPath basePath name
    ModTime := fi.modTime
    BaseScore := if dateStamped name then base + 2 else base }

/-- The per-entry treatment of the Scan loop: skip names starting with
a dot, skip non-directories, skip entries whose Info() call fails
(the Go code does `continue` on that error), otherwise build an Entry. -/
def scanEntry (basePath : String) (now : Rat) (d : DirEnt) : Option Entry :=
  if strStartsWith d.name "." then none
  else if d.isDir = false then none
  else
    match d.info with
    | none => none
    | some fi => some (mkEntry basePath now d.name fi)

/-- Insertion step of the modification-time-descending sort performed
at the end of Scan (sort.Slice with less = ModTime.After). -/
def insertDesc (e : Entry) : List Entry → List Entry
  | [] => [e]
  | a :: t => if a.ModTime < e.ModTime then e :: a :: t else a :: insertDesc e t

/-- The sort at the end of Scan.  sort.Slice is an unstable sort with
strict comparison ModTime.After; its contract is exactly: output is a
permutation of the input that is non-strictly descending in ModTime
(order among equal timestamps unspecified).  Insertion sort realises
that contract. -/
def sortByRecency (l : List Entry) : List Entry :=
  l.foldr insertDesc []

/-- func Scan(basePath string): not-exist read errors yield an empty
list and no error, other read errors are returned, and otherwise the
directory listing is filtered, scored and sorted. -/
def ScanGo (readDir : Except ReadDirErr (List DirEnt)) (basePath : String)
    (now : Rat) : Except ReadDirErr (List Entry) :=
  match readDir with
  | .error .notExist => .ok []
  | .error (.other m) => .error (.other m)
  | .ok ds => .ok (sortByRecency (ds.filterMap (scanEntry basePath now)))

/-! ## Name allocation (Create / uniqueName) -/

/-- Outcome of os.Stat on a path: success (recording IsDir of the
found entry), a not-exist error, or any other error. -/
inductive StatRes where
  | found (isDir : Bool)
  | notExist
  | failed (msg : String)
deriving DecidableEq

/-- os.IsNotExist applied to the (possibly nil) error of os.Stat. -/
def statIsNotExist : StatRes → Bool
  | .notExist => true
  | _ => false

/-- The k-th candidate probed by uniqueName: the bare name first, then
name-2, name-3, and so on. -/
def candidateName (name : String) : Nat → String
  | 0 => name
  | k + 1 => name ++ "-" ++ toString (k + 2)

/-- The unbounded for-loop of func uniqueName, indexed by the number k
of candidates already rejected and bounded by explicit fuel; none
models a run of the loop that has not returned within the given fuel. -/
def uniqueNameAux (stat : String → StatRes) (basePath name : String) :
    Nat → Nat → Option String
  | 0, _ => none
  | fuel + 1, k =>
      let cand := candidateName name k
      if statIsNotExist (stat (joinPath basePath cand)) then some cand
      else uniqueNameAux stat basePath name fuel (k + 1)

/-- func uniqueName(basePath, name string) string, fuel-bounded. -/
def uniqueNameGo (stat : String → StatRes) (basePath name : String)
    (fuel : Nat) : Option String :=
  uniqueNameAux stat basePath name fuel 0

/-- func Create(basePath, name string): trim surrounding whitespace,
replace spaces by dashes, put the date in front, make the name unique
against the live filesystem, then MkdirAll (whose success is reported
by the mkdirOk oracle). today stands for time.Now().Format of the
YYYY-MM-DD layout. -/
def CreateGo (stat : String → StatRes) (mkdirOk : String → Bool)
    (today basePath rawName : String) (fuel : Nat) : Option String :=
  let name := goReplaceSpaces (goTrim rawName)
  let dirName := today ++ "-" ++ name
  match uniqueNameGo stat basePath dirName fuel with
  | none => none
  | some dn =>
      let fullPath := joinPath basePath dn
      if mkdirOk fullPath then some fullPath else none

/-! ## Deletion safety (func Delete) -/

/-- The five failure exits of func Delete, in source order. -/
inductive DeleteErr where
  | absBaseFailed
  | absTargetFailed
  | symBaseFailed
  | symTargetFailed
  | outsideBase
deriving DecidableEq

/-- Result of func Delete: either an error (nothing removed) or the
single os.RemoveAll call on the symlink-resolved target. -/
inductive DeleteRes where
  | err (e : DeleteErr)
  | removed (path : String)
deriving DecidableEq

/-- func Delete(basePath, path string): resolve both arguments with
filepath.Abs and then filepath.EvalSymlinks (each modelled as an
oracle that may fail), then require the resolved target to have the
resolved base followed by the path separator as a prefix before
removing anything. -/
def DeleteGo (abs resolve : String → Option String)
    (basePath path : String) : DeleteRes :=
  match abs basePath with
  | none => .err .absBaseFailed
  | some absBase =>
    match abs path with
    | none => .err .absTargetFailed
    | some absTarget =>
      match resolve absBase with
      | none => .err .symBaseFailed
      | some realBase =>
        match resolve absTarget with
        | none => .err .symTargetFailed
        | some realTarget =>
          if strStartsWith realTarget (realBase ++ "/") then .removed realTarget
          else .err .outsideBase

/-! ## Git URL parsing (internal/workspace/clone.go) -/

/-- struct ParsedURL of clone.go. -/
structure ParsedURL where
  User : String
  Repo : String
  Host : String
deriving DecidableEq

/-- Split a character list at the first occurrence of c; none when c
does not occur. -/
def splitFirst (c : Char) : List Char → Option (List Char × List Char)
  | [] => none
  | a :: t =>
      if a = c then some ([], t)
      else
        match splitFirst c t with
        | none => none
        | some (x, y) => some (a :: x, y)

/-- strings.TrimSuffix(url, a-dot-git-suffix), on reversed character
lists. -/
def stripDotGitRev : List Char → List Char
  | 't' :: 'i' :: 'g' :: '.' :: rest => rest
  | l => l

/-- strings.TrimSuffix(url, the .git suffix). -/
def trimDotGit (l : List Char) : List Char :=
  (stripDotGitRev l.reverse).reverse

/-- The SSH branch of ParseGitURL: the anchored RE2 pattern
git@ ([not-colon]+) : ([not-slash]+) / ([not-slash]+) end.
The host group is everything before the first colon (it may contain
slashes); user is everything between that colon and the first
following slash; repo is the rest, which must be non-empty and
slash-free. -/
def sshParse (l : List Char) : Option (List Char × List Char × List Char) :=
  if l.take 4 = ['g', 'i', 't', '@'] then
    match splitFirst ':' (l.drop 4) with
    | none => none
    | some (h, t) =>
        if h = [] then none
        else
          match splitFirst '/' t with
          | none => none
          | some (u, r) =>
              if u = [] then none
              else if r = [] then none
              else if '/' ∈ r then none
              else some (h, u, r)
  else none

/-- The scheme test of the HTTPS branch: the pattern starts
http, optional s, colon-slash-slash. -/
def stripScheme (l : List Char) : Option (List Char) :=
  if l.take 8 = ['h', 't', 't', 'p', 's', ':', '/', '/'] then some (l.drop 8)
  else if l.take 7 = ['h', 't', 't', 'p', ':', '/', '/'] then some (l.drop 7)
  else none

/-- The HTTPS branch of ParseGitURL: the anchored RE2 pattern
http(s):// ([not-slash]+) / ([not-slash]+) / ([not-slash]+) end. -/
def httpParse (l : List Char) : Option (List Char × List Char × List Char) :=
  match stripScheme l with
  | none => none
  | some rest =>
      match splitFirst '/' rest with
      | none => none
      | some (h, t) =>
          if h = [] then none
          else
            match splitFirst '/' t with
            | none => none
            | some (u, r) =>
                if u = [] then none
                else if r = [] then none
                else if '/' ∈ r then none
                else some (h, u, r)

/-- func ParseGitURL(url string): strip one trailing .git, try the SSH
pattern, then the HTTPS pattern, else fail. -/
def ParseGitURL (url : String) : Option ParsedURL :=
  let l := trimDotGit url.data
  match sshParse l with
  | some (h, u, r) => some ⟨⟨u⟩, ⟨r⟩, ⟨h⟩⟩
  | none =>
      match httpParse l with
      | some (h, u, r) => some ⟨⟨u⟩, ⟨r⟩, ⟨h⟩⟩
      | none => none

/-! ## The selector state machine (internal/tui/model.go)

The bubbles list widget is an external library; the Model only calls
SelectedItem, FilterValue, FilterState, Update, SetItems and SetSize on
it.  The embedding therefore abstracts the widget as an arbitrary type
together with those operations, and every theorem below holds for every
widget implementation (the real one included). -/

/-- The two UI states: StateSelector and StateDeleteConfirm. -/
inductive UIState where
  | selector
  | deleteConfirm
deriving DecidableEq

/-- ActionType of the tui package. -/
inductive ActionType where
  | noneA
  | cd
  | create
  | clone
  | delete
  | cancel
deriving DecidableEq

/-- struct Action: the intent a session produces.  Unset fields keep
their Go zero values. -/
structure Action where
  type : ActionType
  path : String := ""
  url : String := ""
  paths : List String := []
  baseDir : String := ""
deriving DecidableEq

/-- The key events the Model distinguishes.  handleKey dispatches on
msg.String() (ctrl+c, esc, enter, ctrl+d, ctrl+n, everything else goes
to the list widget); handleDeleteConfirmKey dispatches on msg.Type
(KeyEscape, KeyEnter, KeyBackspace, KeyRunes, everything else is
ignored).  The constructors cover both dispatches; runes carries the
typed text, and other covers every remaining key. -/
inductive KeyMsg where
  | ctrlC
  | esc
  | enter
  | ctrlD
  | ctrlN
  | backspace
  | runes (s : String)
  | other (s : String)
deriving DecidableEq

/-- The messages consumed by Update: key presses, window resizes, the
one-shot catalog load completion, and a catalog load error. -/
inductive Msg where
  | key (k : KeyMsg)
  | resize (w h : Int)
  | entriesLoaded (es : List Entry)
  | errMsg (s : String)
deriving DecidableEq

/-- The operations the Model uses on the bubbles list widget. -/
structure ListIface (L : Type) where
  selectedItem : L → Option Entry
  filterValue : L → String
  filtering : L → Bool
  updateKey : L → KeyMsg → L
  setSize : L → Int → Int → L
  setItems : L → List Entry → L
  items : L → List Entry

/-- The contract of the bubbles list widget that the proofs rely on:
the selected item is one of the stored items, and only SetItems changes
the stored items. -/
structure ListIfaceOK {L : Type} (li : ListIface L) : Prop where
  selected_mem : ∀ l e, li.selectedItem l = some e → e ∈ li.items l
  update_items : ∀ l k, li.items (li.updateKey l k) = li.items l
  setSize_items : ∀ l w h, li.items (li.setSize l w h) = li.items l
  setItems_items : ∀ l es, li.items (li.setItems l es) = es

/-- struct Model of the tui package (rendering-only fields such as the
theme are omitted; they are never read by the transition code). -/
structure Model (L : Type) where
  basePath : String
  state : UIState
  lst : L
  entries : List Entry
  width : Int
  height : Int
  deleteTarget : String
  deleteConfirm : String
  action : Option Action
  err : Option String
deriving DecidableEq

/-- The Action produced for ctrl+c and esc: ActionCancel with all
other fields at their zero values. -/
def cancelAct : Action := { type := .cancel }

/-- func (m *Model) handleSelect: navigate to the selected entry, or
treat a non-empty filter text as a creation request, or do nothing.
The returned Bool records whether tea.Quit was issued. -/
def handleSelect {L : Type} (li : ListIface L) (m : Model L) : Model L × Bool :=
  match li.selectedItem m.lst with
  | none =>
      let filterVal := li.filterValue m.lst
      if filterVal ≠ "" then
        ({ m with action := some { type := .create, path := filterVal, baseDir := m.basePath } },
          true)
      else (m, false)
  | some i =>
      ({ m with action := some { type := .cd, path := i.Path, baseDir := m.basePath } }, true)

/-- func (m *Model) handleCreateNew: ctrl+n creates from the current
filter text when it is non-empty. -/
def handleCreateNew {L : Type} (li : ListIface L) (m : Model L) : Model L × Bool :=
  let filterValue := li.filterValue m.lst
  if filterValue = "" then (m, false)
  else
    ({ m with action := some { type := .create, path := filterValue, baseDir := m.basePath } },
      true)

/-- func (m *Model) handleDelete: ctrl+d captures the selected entry
path as the delete target, clears the typed confirmation and enters
StateDeleteConfirm; no-op without a selection. -/
def handleDelete {L : Type} (li : ListIface L) (m : Model L) : Model L × Bool :=
  match li.selectedItem m.lst with
  | none => (m, false)
  | some i =>
      ({ m with deleteTarget := i.Path, deleteConfirm := "", state := .deleteConfirm }, false)

/-- func (m *Model) handleDeleteConfirmKey: escape discards the
confirmation state; enter compares the typed text against the literal
YES and either emits the delete action or silently returns to the
selector; backspace and typed runes edit the confirmation text; every
other key (ctrl+c included) is ignored. -/
def handleDeleteConfirmKey {L : Type} (m : Model L) (k : KeyMsg) : Model L × Bool :=
  match k with
  | .esc =>
      ({ m with state := .selector, deleteTarget := "", deleteConfirm := "" }, false)
  | .enter =>
      if m.deleteConfirm = "YES" then
        ({ m with action := some { type := .delete, paths := [m.deleteTarget],
                                   baseDir := m.basePath } }, true)
      else
        ({ m with state := .selector, deleteTarget := "", deleteConfirm := "" }, false)
  | .backspace =>
      if m.deleteConfirm.length > 0 then
        ({ m with deleteConfirm := m.deleteConfirm.dropRight 1 }, false)
      else (m, false)
  | .runes s => ({ m with deleteConfirm := m.deleteConfirm ++ s }, false)
  | _ => (m, false)

/-- func (m *Model) handleKey: while in StateDeleteConfirm everything
is routed to handleDeleteConfirmKey; otherwise ctrl+c cancels, esc
either leaves filtering (delegated to the list) or cancels, enter
selects, ctrl+d starts deletion, ctrl+n creates, and every other key
is passed to the list widget. -/
def handleKey {L : Type} (li : ListIface L) (m : Model L) (k : KeyMsg) : Model L × Bool :=
  if m.state = .deleteConfirm then handleDeleteConfirmKey m k
  else
    match k with
    | .ctrlC => ({ m with action := some cancelAct }, true)
    | .esc =>
        if li.filtering m.lst then ({ m with lst := li.updateKey m.lst .esc }, false)
        else ({ m with action := some cancelAct }, true)
    | .enter => handleSelect li m
    | .ctrlD => handleDelete li m
    | .ctrlN => handleCreateNew li m
    | k => ({ m with lst := li.updateKey m.lst k }, false)

/-- func (m *Model) Update: key messages go to handleKey, resizes set
the stored dimensions and the list size, a completed catalog load
stores the entries and rebuilds the list items, and a load error is
recorded and quits the session. -/
def updateModel {L : Type} (li : ListIface L) (m : Model L) : Msg → Model L × Bool
  | .key k => handleKey li m k
  | .resize w h =>
      ({ m with width := w, height := h, lst := li.setSize m.lst w h }, false)
  | .entriesLoaded es =>
      ({ m with entries := es, lst := li.setItems m.lst es }, false)
  | .errMsg s => ({ m with err := some s }, true)

/-- func New(basePath, ...): the fresh Model starts in StateSelector
with an empty list widget and zero-valued fields. -/
def initModel {L : Type} (basePath : String) (l0 : L) : Model L :=
  { basePath := basePath
    state := .selector
    lst := l0
    entries := []
    width := 0
    height := 0
    deleteTarget := ""
    deleteConfirm := ""
    action := none
    err := none }

/-- The states a session can reach: the fresh model followed by any
sequence of Update steps.  Catalog loads deliver entries produced by
Scan, whose paths are non-empty (theorem scanGo_paths_nonempty); the
load step records exactly that fact about its payload. -/
inductive Reachable {L : Type} (li : ListIface L) : Model L → Prop where
  | init (basePath : String) (l0 : L) (h0 : li.items l0 = []) :
      Reachable li (initModel basePath l0)
  | stepKey {m : Model L} (k : KeyMsg) (h : Reachable li m) :
      Reachable li (updateModel li m (.key k)).1
  | stepResize {m : Model L} (w h : Int) (hr : Reachable li m) :
      Reachable li (updateModel li m (.resize w h)).1
  | stepLoaded {m : Model L} (es : List Entry) (hp : ∀ e ∈ es, e.Path ≠ "")
      (h : Reachable li m) :
      Reachable li (updateModel li m (.entriesLoaded es)).1
  | stepErr {m : Model L} (s : String) (h : Reachable li m) :
      Reachable li (updateModel li m (.errMsg s)).1

/-- A minimal concrete list widget used to instantiate the theorems:
it stores the items and a cursor, selects the item under the cursor,
and never filters. -/
structure SList where
  itemsS : List Entry
  cursor : Nat
deriving DecidableEq

/-- The ListIface instance for the minimal widget. -/
def sListIface : ListIface SList :=
  { selectedItem := fun l => l.itemsS.get? l.cursor
    filterValue := fun _ => ""
    filtering := fun _ => false
    updateKey := fun l _ => l
    setSize := fun l _ _ => l
    setItems := fun _ es => ⟨es, 0⟩
    items := fun l => l.itemsS }

/-- The minimal widget satisfies the list contract. -/
theorem sListIfaceOK : ListIfaceOK sListIface :=
  { selected_mem := fun l e h => List.get?_mem h
    update_items := fun _ _ => rfl
    setSize_items := fun _ _ _ => rfl
    setItems_items := fun _ _ => rfl }

/-! ## Helper lemmas -/

/-- splitFirst soundness: a successful split reassembles the input,
and the first component avoids the separator. -/
theorem splitFirst_eq (c : Char) :
    ∀ (l x y : List Char), splitFirst c l = some (x, y) → l = x ++ c :: y ∧ c ∉ x := by
  intro l
  induction l with
  | nil => intro x y h; simp [splitFirst] at h
  | cons a t ih =>
    intro x y h
    by_cases hac : a = c
    · subst hac
      simp [splitFirst] at h
      obtain ⟨rfl, rfl⟩ := h
      simp
    · simp only [splitFirst, if_neg hac] at h
      rcases hsp : splitFirst c t with _ | ⟨x1, y1⟩
      · rw [hsp] at h; simp at h
      · rw [hsp] at h
        simp only [Option.some.injEq, Prod.mk.injEq] at h
        obtain ⟨hx, hy⟩ := h
        subst hx
        subst hy
        obtain ⟨ht, hmem⟩ := ih x1 y1 hsp
        subst ht
        refine ⟨rfl, ?_⟩
        intro hc
        rcases List.mem_cons.mp hc with h1 | h2
        · exact hac h1.symm
        · exact hmem h2

/-- splitFirst completeness: splitting at an explicitly placed first
separator succeeds. -/
theorem splitFirst_append (c : Char) :
    ∀ (x y : List Char), c ∉ x → splitFirst c (x ++ c :: y) = some (x, y) := by
  intro x
  induction x with
  | nil => intro y _; simp [splitFirst]
  | cons a t ih =>
    intro y hmem
    have hac : a ≠ c := by
      intro hcon; exact hmem (by simp [hcon])
    have hrec := ih y (fun hc => hmem (by simp [hc]))
    simp only [List.cons_append, splitFirst, if_neg hac]
    simp only [List.append_eq] at hrec ⊢
    rw [hrec]

/-- Inserting into the descending order is a permutation of consing. -/
theorem insertDesc_perm (e : Entry) :
    ∀ l : List Entry, List.Perm (insertDesc e l) (e :: l) := by
  intro l
  induction l with
  | nil => simp [insertDesc]
  | cons a t ih =>
    simp only [insertDesc]
    split
    · exact List.Perm.refl _
    · exact (List.Perm.cons a ih).trans (List.Perm.swap e a t)

/-- The result of sortByRecency is a permutation of its input. -/
theorem sortByRecency_perm :
    ∀ l : List Entry, List.Perm (sortByRecency l) l := by
  intro l
  induction l with
  | nil => simp [sortByRecency]
  | cons a t ih =>
    have : sortByRecency (a :: t) = insertDesc a (sortByRecency t) := rfl
    rw [this]
    exact (insertDesc_perm a (sortByRecency t)).trans (List.Perm.cons a ih)

/-- Inserting into a ModTime-descending list keeps it descending. -/
theorem insertDesc_sorted (e : Entry) :
    ∀ l : List Entry, List.Pairwise (fun a b => b.ModTime ≤ a.ModTime) l →
      List.Pairwise (fun a b => b.ModTime ≤ a.ModTime) (insertDesc e l) := by
  intro l
  induction l with
  | nil => intro _; simp [insertDesc]
  | cons a t ih =>
    intro h
    obtain ⟨ha, ht⟩ := List.pairwise_cons.mp h
    simp only [insertDesc]
    split
    · rename_i hlt
      refine List.pairwise_cons.mpr ⟨?_, h⟩
      intro b hb
      rcases List.mem_cons.mp hb with rfl | hbt
      · exact le_of_lt hlt
      · exact le_trans (ha b hbt) (le_of_lt hlt)
    · rename_i hnlt
      refine List.pairwise_cons.mpr ⟨?_, ih ht⟩
      intro b hb
      have hb2 : b ∈ e :: t := (insertDesc_perm e t).mem_iff.mp hb
      rcases List.mem_cons.mp hb2 with rfl | hbt
      · exact le_of_not_lt hnlt
      · exact ha b hbt

/-- sortByRecency sorts by modification time, most recent first. -/
theorem sortByRecency_sorted :
    ∀ l : List Entry,
      List.Pairwise (fun a b => b.ModTime ≤ a.ModTime) (sortByRecency l) := by
  intro l
  induction l with
  | nil => simp [sortByRecency]
  | cons a t ih => exact insertDesc_sorted a (sortByRecency t) ih

/-- A successful scanEntry determines every field of the produced
entry from the directory entry. -/
theorem scanEntry_eq_some {basePath : String} {now : Rat} {d : DirEnt} {e : Entry}
    (h : scanEntry basePath now d = some e) :
    strStartsWith d.name "." = false ∧ d.isDir = true ∧
      ∃ fi, d.info = some fi ∧ e = mkEntry basePath now d.name fi := by
  by_cases h1 : strStartsWith d.name "." = true
  · simp [scanEntry, h1] at h
  · have h1f : strStartsWith d.name "." = false := by
      cases hx : strStartsWith d.name "." with
      | false => rfl
      | true => exact absurd hx h1
    by_cases h2 : d.isDir = true
    · rcases hinfo : d.info with _ | fi
      · simp [scanEntry, h1f, h2, hinfo] at h
      · simp [scanEntry, h1f, h2, hinfo] at h
        exact ⟨h1f, h2, fi, rfl, h.symm⟩
    · have h2f : d.isDir = false := by
        cases hx : d.isDir with
        | false => rfl
        | true => exact absurd hx h2
      simp [scanEntry, h1f, h2f] at h

/-- The converse: a visible directory with readable metadata scans to
exactly the entry built by mkEntry. -/
theorem scanEntry_of_ok {basePath : String} {now : Rat} {d : DirEnt} {fi : FileInfo}
    (h1 : strStartsWith d.name "." = false) (h2 : d.isDir = true)
    (h3 : d.info = some fi) :
    scanEntry basePath now d = some (mkEntry basePath now d.name fi) := by
  simp [scanEntry, h1, h2, h3]

/-- The uniqueName loop returns the first not-exist candidate:
starting at index k, if the next j candidates are taken and candidate
k+j is free, the loop returns candidate k+j given enough fuel. -/
theorem uniqueNameAux_first (stat : String → StatRes) (basePath name : String) :
    ∀ (j k fuel : Nat),
      (∀ i, i < j → statIsNotExist (stat (joinPath basePath (candidateName name (k + i)))) = false) →
      statIsNotExist (stat (joinPath basePath (candidateName name (k + j)))) = true →
      j < fuel →
      uniqueNameAux stat basePath name fuel k = some (candidateName name (k + j)) := by
  intro j
  induction j with
  | zero =>
    intro k fuel _ hfree hfuel
    cases fuel with
    | zero => omega
    | succ f =>
      simp only [uniqueNameAux]
      rw [show k + 0 = k from rfl] at hfree
      simp [hfree]
  | succ j ih =>
    intro k fuel htaken hfree hfuel
    cases fuel with
    | zero => omega
    | succ f =>
      have h0 : statIsNotExist (stat (joinPath basePath (candidateName name k))) = false := by
        have := htaken 0 (Nat.succ_pos j)
        simpa using this
      simp only [uniqueNameAux, h0]
      simp only [Bool.false_eq_true, if_false]
      have hshift : ∀ i, i < j →
          statIsNotExist (stat (joinPath basePath (candidateName name (k + 1 + i)))) = false := by
        intro i hi
        have := htaken (i + 1) (by omega)
        rw [show k + (i + 1) = k + 1 + i by omega] at this
        exact this
      have hfree2 : statIsNotExist (stat (joinPath basePath (candidateName name (k + 1 + j)))) = true := by
        rw [show k + 1 + j = k + (j + 1) by omega]
        exact hfree
      have := ih (k + 1) f hshift hfree2 (by omega)
      rw [this]
      rw [show k + 1 + j = k + (j + 1) by omega]

/-- If no candidate is ever reported as not existing, the loop runs
forever: no amount of fuel makes it return. -/
theorem uniqueNameAux_none (stat : String → StatRes) (basePath name : String)
    (h : ∀ i, statIsNotExist (stat (joinPath basePath (candidateName name i))) = false) :
    ∀ (fuel k : Nat), uniqueNameAux stat basePath name fuel k = none := by
  intro fuel
  induction fuel with
  | zero => intro k; rfl
  | succ f ih =>
    intro k
    simp only [uniqueNameAux, h k]
    simp only [Bool.false_eq_true, if_false]
    exact ih (k + 1)

/-- Each Newton step at least halves a positive iterate, so after n
steps the result is still at least z / 2^n (and positive) for any
non-negative radicand. -/
theorem newtonLoop_lower (x : Rat) (hx : 0 ≤ x) :
    ∀ (n : Nat) (z : Rat), 0 < z →
      z / 2 ^ n ≤ newtonLoop x n z ∧ 0 < newtonLoop x n z := by
  intro n
  induction n with
  | zero =>
    intro z hz
    simp only [newtonLoop, pow_zero, div_one]
    exact ⟨le_refl z, hz⟩
  | succ n ih =>
    intro z hz
    have hz0 : z ≠ 0 := ne_of_gt hz
    have hstep : z - (z * z - x) / (2 * z) = z / 2 + x / (2 * z) := by
      field_simp
      ring
    have hpos : 0 < z / 2 + x / (2 * z) := by
      have h1 : 0 < z / 2 := by positivity
      have h2 : 0 ≤ x / (2 * z) := by positivity
      linarith
    have hge : z / 2 ≤ z / 2 + x / (2 * z) := by
      have h2 : 0 ≤ x / (2 * z) := by positivity
      linarith
    have hloop : newtonLoop x (n + 1) z = newtonLoop x n (z - (z * z - x) / (2 * z)) := rfl
    obtain ⟨ha, hb⟩ := ih (z - (z * z - x) / (2 * z)) (by rw [hstep]; exact hpos)
    refine ⟨?_, by rw [hloop]; exact hb⟩
    rw [hloop]
    have hchain : z / 2 ^ (n + 1) ≤ (z - (z * z - x) / (2 * z)) / 2 ^ n := by
      rw [hstep]
      have hpow : (0:Rat) < 2 ^ n := by positivity
      rw [pow_succ]
      rw [show z / (2 ^ n * 2) = (z / 2) / 2 ^ n by ring]
      gcongr
    exact le_trans hchain ha

/-- Every element of the scan filterMap comes from a visible directory
of the listing with readable metadata. -/
theorem mem_filterMap_scan {basePath : String} {now : Rat} {ds : List DirEnt} {e : Entry}
    (h : e ∈ ds.filterMap (scanEntry basePath now)) :
    ∃ d ∈ ds, strStartsWith d.name "." = false ∧ d.isDir = true ∧
      ∃ fi, d.info = some fi ∧ e = mkEntry basePath now d.name fi := by
  obtain ⟨d, hd, hsc⟩ := List.mem_filterMap.mp h
  obtain ⟨h1, h2, fi, h3, h4⟩ := scanEntry_eq_some hsc
  exact ⟨d, hd, h1, h2, fi, h3, h4⟩

/-- With pairwise-distinct names, each visible directory with readable
metadata contributes exactly one entry to the scan filterMap. -/
theorem countP_filterMap_scan (basePath : String) (now : Rat) :
    ∀ (ds : List DirEnt), (ds.map DirEnt.name).Nodup →
      ∀ d ∈ ds, d.isDir = true → strStartsWith d.name "." = false →
        ∀ fi, d.info = some fi →
          (ds.filterMap (scanEntry basePath now)).countP (fun e => e.Name == d.name) = 1 := by
  intro ds
  induction ds with
  | nil => intro _ d hd; exact absurd hd (List.not_mem_nil d)
  | cons a t ih =>
    intro hnd d hd hdir hdot fi hfi
    have hnd2 : (t.map DirEnt.name).Nodup := (List.nodup_cons.mp hnd).2
    have hnota : a.name ∉ t.map DirEnt.name := (List.nodup_cons.mp hnd).1
    rcases List.mem_cons.mp hd with rfl | hdt
    · have hsc : scanEntry basePath now d = some (mkEntry basePath now d.name fi) :=
        scanEntry_of_ok hdot hdir hfi
      rw [List.filterMap_cons_some hsc, List.countP_cons]
      have hzero : (t.filterMap (scanEntry basePath now)).countP (fun e => e.Name == d.name) = 0 := by
        rw [List.countP_eq_zero]
        intro e he
        obtain ⟨d2, hd2, _, _, fi2, _, hmk⟩ := mem_filterMap_scan he
        have hne : e.Name = d2.name := by rw [hmk]; rfl
        have : d2.name ≠ d.name := by
          intro hcon
          exact hnota (hcon ▸ List.mem_map_of_mem DirEnt.name hd2)
        simp [hne, this]
      rw [hzero]
      simp [mkEntry]
    · have hdmem : d.name ∈ t.map DirEnt.name := List.mem_map_of_mem DirEnt.name hdt
      have hane : ∀ e0, scanEntry basePath now a = some e0 → (e0.Name == d.name) = false := by
        intro e0 he0
        obtain ⟨_, _, fi0, _, hmk⟩ := scanEntry_eq_some he0
        have : e0.Name = a.name := by rw [hmk]; rfl
        have hne : a.name ≠ d.name := by
          intro hcon
          exact hnota (hcon ▸ hdmem)
        simp [this, hne]
      cases hsa : scanEntry basePath now a with
      | none =>
        rw [List.filterMap_cons_none hsa]
        exact ih hnd2 d hdt hdir hdot fi hfi
      | some e0 =>
        rw [List.filterMap_cons_some hsa, List.countP_cons, hane e0 hsa]
        simp only [Bool.false_eq_true, if_false, Nat.add_zero]
        exact ih hnd2 d hdt hdir hdot fi hfi

/-- The session invariant maintained by every transition of the
selector state machine: outside the confirmation state both
confirmation fields are cleared, inside it the delete target is a
non-empty path, and the list widget only ever holds entries with
non-empty paths. -/
def ModelInv {L : Type} (li : ListIface L) (m : Model L) : Prop :=
  (m.state = .selector → m.deleteTarget = "" ∧ m.deleteConfirm = "") ∧
  (m.state = .deleteConfirm → m.deleteTarget ≠ "") ∧
  (∀ e ∈ li.items m.lst, e.Path ≠ "")

/-- Transitions that keep the state, both confirmation fields and the
stored items preserve the invariant. -/
theorem modelInv_of_same {L : Type} (li : ListIface L) (m m' : Model L)
    (hst : m'.state = m.state) (hdt : m'.deleteTarget = m.deleteTarget)
    (hdc : m'.deleteConfirm = m.deleteConfirm)
    (hitems : li.items m'.lst = li.items m.lst)
    (h : ModelInv li m) : ModelInv li m' := by
  obtain ⟨h1, h2, h3⟩ := h
  refine ⟨?_, ?_, ?_⟩
  · intro hx
    rw [hdt, hdc]
    exact h1 (by rw [← hst]; exact hx)
  · intro hx
    rw [hdt]
    exact h2 (by rw [← hst]; exact hx)
  · intro e he
    exact h3 e (hitems ▸ he)

/-- Every reachable session state satisfies the invariant. -/
theorem reachable_modelInv {L : Type} {li : ListIface L} (hok : ListIfaceOK li) :
    ∀ {m : Model L}, Reachable li m → ModelInv li m := by
  intro m h
  induction h with
  | init basePath l0 h0 =>
    refine ⟨fun _ => ⟨rfl, rfl⟩, fun hc => UIState.noConfusion hc, ?_⟩
    intro e he
    rw [show (initModel basePath l0 : Model L).lst = l0 from rfl, h0] at he
    exact absurd he (List.not_mem_nil e)
  | stepKey k h ih =>
    obtain ⟨ih1, ih2, ih3⟩ := ih
    rename_i m1
    have hinv : ModelInv li m1 := ⟨ih1, ih2, ih3⟩
    show ModelInv li (handleKey li m1 k).1
    by_cases hs : m1.state = .deleteConfirm
    · have hred : handleKey li m1 k = handleDeleteConfirmKey m1 k := by
        simp [handleKey, hs]
      rw [hred]
      cases k with
      | esc =>
        exact ⟨fun _ => ⟨rfl, rfl⟩, fun hcon => UIState.noConfusion hcon, ih3⟩
      | enter =>
        by_cases hy : m1.deleteConfirm = "YES"
        · simp only [handleDeleteConfirmKey, if_pos hy]
          exact ⟨fun hcon => absurd (hs.symm.trans hcon) (fun hx => UIState.noConfusion hx),
                 fun _ => ih2 hs, ih3⟩
        · simp only [handleDeleteConfirmKey, if_neg hy]
          exact ⟨fun _ => ⟨rfl, rfl⟩, fun hcon => UIState.noConfusion hcon, ih3⟩
      | backspace =>
        simp only [handleDeleteConfirmKey]
        split
        · exact ⟨fun hcon => absurd (hs.symm.trans hcon) (fun hx => UIState.noConfusion hx),
                 fun _ => ih2 hs, ih3⟩
        · exact hinv
      | runes s =>
        exact ⟨fun hcon => absurd (hs.symm.trans hcon) (fun hx => UIState.noConfusion hx),
               fun _ => ih2 hs, ih3⟩
      | ctrlC => exact hinv
      | ctrlD => exact hinv
      | ctrlN => exact hinv
      | other s => exact hinv
    · cases k with
      | ctrlC =>
        have hred : handleKey li m1 .ctrlC = ({ m1 with action := some cancelAct }, true) := by
          simp [handleKey, hs]
        rw [hred]
        exact modelInv_of_same li m1 _ rfl rfl rfl rfl hinv
      | esc =>
        by_cases hf : li.filtering m1.lst
        · have hred : handleKey li m1 .esc =
              ({ m1 with lst := li.updateKey m1.lst .esc }, false) := by
            simp [handleKey, hs, hf]
          rw [hred]
          exact modelInv_of_same li m1 _ rfl rfl rfl (hok.update_items m1.lst .esc) hinv
        · have hred : handleKey li m1 .esc = ({ m1 with action := some cancelAct }, true) := by
            simp [handleKey, hs, hf]
          rw [hred]
          exact modelInv_of_same li m1 _ rfl rfl rfl rfl hinv
      | enter =>
        have hred : handleKey li m1 .enter = handleSelect li m1 := by
          simp [handleKey, hs]
        rw [hred]
        cases hsi : li.selectedItem m1.lst with
        | none =>
          simp only [handleSelect, hsi]
          split
          · exact modelInv_of_same li m1 _ rfl rfl rfl rfl hinv
          · exact hinv
        | some i =>
          simp only [handleSelect, hsi]
          exact modelInv_of_same li m1 _ rfl rfl rfl rfl hinv
      | ctrlD =>
        have hred : handleKey li m1 .ctrlD = handleDelete li m1 := by
          simp [handleKey, hs]
        rw [hred]
        cases hsi : li.selectedItem m1.lst with
        | none =>
          simp only [handleDelete, hsi]
          exact hinv
        | some i =>
          simp only [handleDelete, hsi]
          refine ⟨fun hcon => UIState.noConfusion hcon, fun _ => ?_, ih3⟩
          exact ih3 i (hok.selected_mem m1.lst i hsi)
      | ctrlN =>
        have hred : handleKey li m1 .ctrlN = handleCreateNew li m1 := by
          simp [handleKey, hs]
        rw [hred]
        simp only [handleCreateNew]
        split
        · exact hinv
        · exact modelInv_of_same li m1 _ rfl rfl rfl rfl hinv
      | backspace =>
        have hred : handleKey li m1 .backspace =
            ({ m1 with lst := li.updateKey m1.lst .backspace }, false) := by
          simp [handleKey, hs]
        rw [hred]
        exact modelInv_of_same li m1 _ rfl rfl rfl (hok.update_items m1.lst .backspace) hinv
      | runes s =>
        have hred : handleKey li m1 (.runes s) =
            ({ m1 with lst := li.updateKey m1.lst (.runes s) }, false) := by
          simp [handleKey, hs]
        rw [hred]
        exact modelInv_of_same li m1 _ rfl rfl rfl (hok.update_items m1.lst (.runes s)) hinv
      | other s =>
        have hred : handleKey li m1 (.other s) =
            ({ m1 with lst := li.updateKey m1.lst (.other s) }, false) := by
          simp [handleKey, hs]
        rw [hred]
        exact modelInv_of_same li m1 _ rfl rfl rfl (hok.update_items m1.lst (.other s)) hinv
  | stepResize w hgt hr ih =>
    rename_i m1
    exact modelInv_of_same li m1 _ rfl rfl rfl (hok.setSize_items m1.lst w hgt) ih
  | stepLoaded es hp h ih =>
    obtain ⟨ih1, ih2, ih3⟩ := ih
    rename_i m1
    refine ⟨ih1, ih2, ?_⟩
    intro e he
    rw [show ((updateModel li m1 (.entriesLoaded es)).1).lst = li.setItems m1.lst es from rfl,
      hok.setItems_items] at he
    exact hp e he
  | stepErr s h ih =>
    obtain ⟨ih1, ih2, ih3⟩ := ih
    exact ⟨ih1, ih2, ih3⟩

/-! ## Claim theorems -/

/-- C1: Delete(basePath, path) resolves both paths to absolute form
and through symlinks; whenever the resolved target does not have the
resolved base plus the path separator as a prefix it returns the
safety-check error and removes nothing — in particular a target whose
literal string starts with basePath but resolves elsewhere via a
symlink is still rejected, because only the resolved strings are
compared. -/
theorem C1_delete_path_safety (abs resolve : String → Option String)
    (basePath path aB aT rB rT : String)
    (h1 : abs basePath = some aB) (h2 : abs path = some aT)
    (h3 : resolve aB = some rB) (h4 : resolve aT = some rT)
    (h5 : strStartsWith rT (rB ++ "/") = false) :
    DeleteGo abs resolve basePath path = .err .outsideBase ∧
    ∀ p, DeleteGo abs resolve basePath path ≠ .removed p := by
  have hred : DeleteGo abs resolve basePath path = .err .outsideBase := by
    simp [DeleteGo, h1, h2, h3, h4, h5]
  refine ⟨hred, fun p hcon => ?_⟩
  rw [hred] at hcon
  exact DeleteRes.noConfusion hcon

/-- The identity filepath.Abs oracle used in the C1 witness (all paths
already absolute). -/
def c1abs (s : String) : Option String := some s

/-- The filepath.EvalSymlinks oracle of the C1 witness: the entry
under the base directory is a symlink pointing outside it. -/
def c1resolve (s : String) : Option String :=
  if s = "/base/evil" then some "/outside/secret" else some s

/-- C1 witness: a target that literally starts with the base path but
resolves outside it is rejected by Delete. -/
theorem C1_delete_path_safety_witness :
    c1abs "/base" = some "/base" ∧ c1abs "/base/evil" = some "/base/evil" ∧
    c1resolve "/base" = some "/base" ∧ c1resolve "/base/evil" = some "/outside/secret" ∧
    strStartsWith "/base/evil" "/base" = true ∧
    strStartsWith "/outside/secret" ("/base" ++ "/") = false ∧
    DeleteGo c1abs c1resolve "/base" "/base/evil" = .err .outsideBase :=
  ⟨by decide, by decide, by decide, by decide, by decide, by decide,
    (C1_delete_path_safety c1abs c1resolve "/base" "/base/evil" "/base" "/base/evil"
      "/base" "/outside/secret" (by decide) (by decide) (by decide) (by decide) (by decide)).1⟩

/-- C2: while the selector is in the delete-confirmation state,
Enter with confirmation text exactly YES emits
Delete([deleteTarget], baseDir) and terminates; Enter with any other
text emits no intent, clears the delete target and the confirmation
text, and returns to browsing without error (the full model equality
shows action and err are untouched in the second case). -/
theorem C2_confirm_enter {L : Type} (li : ListIface L) (m : Model L)
    (hs : m.state = .deleteConfirm) :
    (m.deleteConfirm = "YES" →
      updateModel li m (.key .enter) =
        ({ m with action := some { type := .delete, paths := [m.deleteTarget],
                                   baseDir := m.basePath } }, true)) ∧
    (m.deleteConfirm ≠ "YES" →
      updateModel li m (.key .enter) =
        ({ m with state := .selector, deleteTarget := "", deleteConfirm := "" }, false)) := by
  constructor
  · intro hy
    show handleKey li m .enter = _
    simp [handleKey, hs, handleDeleteConfirmKey, hy]
  · intro hy
    show handleKey li m .enter = _
    simp [handleKey, hs, handleDeleteConfirmKey, hy]

/-- A confirmation-state model with YES typed, for the C2 witness. -/
def c2modelYES : Model SList :=
  { basePath := "/b", state := .deleteConfirm, lst := ⟨[], 0⟩, entries := [],
    width := 0, height := 0, deleteTarget := "/b/x", deleteConfirm := "YES",
    action := none, err := none }

/-- The same model with NO typed instead. -/
def c2modelNO : Model SList := { c2modelYES with deleteConfirm := "NO" }

/-- C2 witness: both Enter branches at concrete models. -/
theorem C2_confirm_enter_witness :
    updateModel sListIface c2modelYES (.key .enter) =
      ({ c2modelYES with
          action := some { type := .delete, paths := ["/b/x"], baseDir := "/b" } }, true) ∧
    updateModel sListIface c2modelNO (.key .enter) =
      ({ c2modelNO with state := .selector, deleteTarget := "", deleteConfirm := "" }, false) :=
  ⟨(C2_confirm_enter sListIface c2modelYES rfl).1 rfl,
   (C2_confirm_enter sListIface c2modelNO rfl).2 (by decide)⟩

/-- C3 counterexample: the claim says Ctrl-C cancels from every state
including delete-confirmation, but in the reachable state obtained by
loading one entry and pressing ctrl+d, pressing ctrl+c is ignored:
the model is returned unchanged, no quit is issued, and no Cancel
intent is emitted (handleDeleteConfirmKey has no case for KeyCtrlC). -/
def c3reached : Model SList :=
  (updateModel sListIface
    (updateModel sListIface (initModel "/b" ⟨[], 0⟩)
      (.entriesLoaded [⟨"x", "/b/x", 0, 0⟩])).1
    (.key .ctrlD)).1

/-- C3 counterexample theorem: Ctrl-C does nothing mid-confirmation. -/
theorem C3_counterexample :
    c3reached.state = .deleteConfirm ∧ c3reached.action = none ∧
    updateModel sListIface c3reached (.key .ctrlC) = (c3reached, false) := by
  decide

/-- C3 (amended): Ctrl-C emits Cancel and terminates immediately in
the selector state (browsing or filtering), but in the
delete-confirmation state it is ignored: the model is unchanged, no
quit is issued, and no intent is emitted. -/
theorem C3_ctrlC {L : Type} (li : ListIface L) (m : Model L) :
    (m.state = .selector →
      updateModel li m (.key .ctrlC) = ({ m with action := some cancelAct }, true)) ∧
    (m.state = .deleteConfirm → updateModel li m (.key .ctrlC) = (m, false)) := by
  constructor
  · intro hs
    show handleKey li m .ctrlC = _
    have hns : ¬ m.state = .deleteConfirm := by
      rw [hs]; exact fun hx => UIState.noConfusion hx
    simp [handleKey, hns]
  · intro hs
    show handleKey li m .ctrlC = _
    simp [handleKey, hs, handleDeleteConfirmKey]

/-- A browsing-state model for the C3 witness. -/
def c3selModel : Model SList := initModel "/sel" ⟨[], 0⟩

/-- A confirmation-state model for the C3 witness. -/
def c3confModel : Model SList :=
  { basePath := "/sel", state := .deleteConfirm, lst := ⟨[], 0⟩, entries := [],
    width := 0, height := 0, deleteTarget := "/sel/y", deleteConfirm := "",
    action := none, err := none }

/-- C3 witness: both branches of the amended statement at concrete
models. -/
theorem C3_ctrlC_witness :
    updateModel sListIface c3selModel (.key .ctrlC) =
      ({ c3selModel with action := some cancelAct }, true) ∧
    updateModel sListIface c3confModel (.key .ctrlC) = (c3confModel, false) :=
  ⟨(C3_ctrlC sListIface c3selModel).1 rfl, (C3_ctrlC sListIface c3confModel).2 rfl⟩

/-- C9: in every reachable session state, the delete target and typed
confirmation text carry data exactly when the session is in the
delete-confirmation mode: the delete target is non-empty iff the mode
is delete-confirmation (where the typed text may still be empty right
after entry), and outside that mode both fields are cleared. -/
theorem C9_confirm_fields_iff {L : Type} (li : ListIface L) (hok : ListIfaceOK li)
    (m : Model L) (h : Reachable li m) :
    ((m.deleteTarget ≠ "" ∨ m.deleteConfirm ≠ "") ↔ m.state = .deleteConfirm) ∧
    (m.state = .deleteConfirm → m.deleteTarget ≠ "") ∧
    (m.state ≠ .deleteConfirm → m.deleteTarget = "" ∧ m.deleteConfirm = "") := by
  obtain ⟨h1, h2, h3⟩ := reachable_modelInv hok h
  have hsel : m.state ≠ .deleteConfirm → m.state = .selector := by
    intro hns
    cases hx : m.state with
    | selector => rfl
    | deleteConfirm => exact absurd hx hns
  refine ⟨⟨?_, ?_⟩, h2, fun hs => h1 (hsel hs)⟩
  · intro hor
    by_cases hs : m.state = .deleteConfirm
    · exact hs
    · obtain ⟨ha, hb⟩ := h1 (hsel hs)
      rcases hor with hx | hx
      · exact absurd ha hx
      · exact absurd hb hx
  · intro hs
    exact Or.inl (h2 hs)

/-- The reachable confirmation-mode model used by the C9 witness:
load one entry, press ctrl+d. -/
def c9model : Model SList :=
  (updateModel sListIface
    (updateModel sListIface (initModel "/w9" ⟨[], 0⟩)
      (.entriesLoaded [⟨"y", "/w9/y", 0, 0⟩])).1
    (.key .ctrlD)).1

/-- C9 witness: the invariant instantiated at a concrete reachable
state. -/
theorem C9_confirm_fields_iff_witness :
    ((c9model.deleteTarget ≠ "" ∨ c9model.deleteConfirm ≠ "") ↔
      c9model.state = .deleteConfirm) ∧
    (c9model.state = .deleteConfirm → c9model.deleteTarget ≠ "") ∧
    (c9model.state ≠ .deleteConfirm →
      c9model.deleteTarget = "" ∧ c9model.deleteConfirm = "") :=
  C9_confirm_fields_iff sListIface sListIfaceOK c9model
    (Reachable.stepKey .ctrlD
      (Reachable.stepLoaded [⟨"y", "/w9/y", 0, 0⟩] (by decide)
        (Reachable.init "/w9" ⟨[], 0⟩ rfl)))

/-- The uniqueName loop, started at candidate index 0, returns the
first free candidate given enough fuel. -/
theorem uniqueNameGo_first (stat : String → StatRes) (basePath name : String)
    (k fuel : Nat)
    (htaken : ∀ i, i < k →
      statIsNotExist (stat (joinPath basePath (candidateName name i))) = false)
    (hfree : statIsNotExist (stat (joinPath basePath (candidateName name k))) = true)
    (hlt : k < fuel) :
    uniqueNameGo stat basePath name fuel = some (candidateName name k) := by
  have ht : ∀ i, i < k →
      statIsNotExist (stat (joinPath basePath (candidateName name (0 + i)))) = false := by
    intro i hi
    rw [Nat.zero_add]
    exact htaken i hi
  have hf : statIsNotExist (stat (joinPath basePath (candidateName name (0 + k)))) = true := by
    rw [Nat.zero_add]
    exact hfree
  have h := uniqueNameAux_first stat basePath name k 0 fuel ht hf hlt
  rw [Nat.zero_add] at h
  exact h

/-- C10: uniqueName returns the first candidate of the sequence
name, name-2, name-3, ... that the stat oracle reports as not
existing, and terminates whenever such a candidate exists; if every
probe reports existence or a non-not-exist error, no amount of fuel
makes the loop return (the Go loop never terminates). -/
theorem C10_uniqueName_first_free (stat : String → StatRes) (basePath name : String) :
    (∀ k fuel,
      (∀ i, i < k →
        statIsNotExist (stat (joinPath basePath (candidateName name i))) = false) →
      statIsNotExist (stat (joinPath basePath (candidateName name k))) = true →
      k < fuel →
      uniqueNameGo stat basePath name fuel = some (candidateName name k)) ∧
    ((∀ i, statIsNotExist (stat (joinPath basePath (candidateName name i))) = false) →
      ∀ fuel, uniqueNameGo stat basePath name fuel = none) :=
  ⟨fun k fuel htaken hfree hlt => uniqueNameGo_first stat basePath name k fuel htaken hfree hlt,
   fun hall fuel => uniqueNameAux_none stat basePath name hall fuel 0⟩

/-- Stat oracle for the C10 witness: only the bare candidate is
taken. -/
def c10stat (s : String) : StatRes := if s = "/w10/n" then .found true else .notExist

/-- C10 witness: with the bare name taken, the loop returns n-2. -/
theorem C10_uniqueName_first_free_witness :
    uniqueNameGo c10stat "/w10" "n" 3 = some "n-2" :=
  (C10_uniqueName_first_free c10stat "/w10" "n").1 1 3 (by decide) (by decide) (by decide)

/-- C4 counterexample: a listing entry whose metadata read fails
(Info() returns an error, modelled as info = none) is not surfaced as
an error: Scan succeeds and silently omits the entry, contradicting
the claim that every such failure is surfaced to the caller. -/
theorem C4_counterexample :
    (⟨"data", true, none⟩ : DirEnt).info = none ∧
    ScanGo (.ok [⟨"data", true, none⟩]) "/base" 0 = .ok [] :=
  ⟨rfl, rfl⟩

/-- C4 (amended): Scan on a non-existent base directory returns an
empty sequence and no error, and a ReadDir failure other than
not-exist is surfaced as an error; but a failure to read an
individual entry's metadata is silently skipped: a successful listing
never produces an error, and an entry with failed metadata
contributes nothing to the result. -/
theorem C4_scan_errors (basePath : String) (now : Rat) :
    (ScanGo (.error .notExist) basePath now = .ok []) ∧
    (∀ msg, ScanGo (.error (.other msg)) basePath now = .error (.other msg)) ∧
    (∀ ds, ∃ es, ScanGo (.ok ds) basePath now = .ok es) ∧
    (∀ ds (d : DirEnt), d.info = none →
      ScanGo (.ok (d :: ds)) basePath now = ScanGo (.ok ds) basePath now) := by
  refine ⟨rfl, fun msg => rfl, fun ds => ⟨_, rfl⟩, ?_⟩
  intro ds d hinfo
  have hd : scanEntry basePath now d = none := by
    unfold scanEntry
    rw [hinfo]
    split
    · rfl
    · split
      · rfl
      · rfl
  simp only [ScanGo, List.filterMap_cons_none hd]

/-- C4 witness: the silent-skip conjunct at a concrete listing. -/
theorem C4_scan_errors_witness :
    ScanGo (.ok [⟨"bad", true, none⟩, ⟨"ok", true, some ⟨0⟩⟩]) "/w4" 0 =
      ScanGo (.ok [⟨"ok", true, some ⟨0⟩⟩]) "/w4" 0 :=
  (C4_scan_errors "/w4" 0).2.2.2 [⟨"ok", true, some ⟨0⟩⟩] ⟨"bad", true, none⟩ rfl

/-- C5 counterexample: an existing non-hidden subdirectory whose
metadata read fails yields no Entry at all, so the sequence does not
contain exactly one Entry per existing visible subdirectory. -/
theorem C5_counterexample :
    (⟨"exp", true, none⟩ : DirEnt).isDir = true ∧
    strStartsWith "exp" "." = false ∧
    ScanGo (.ok [⟨"exp", true, none⟩]) "/b5" 0 = .ok [] :=
  ⟨rfl, by decide, rfl⟩

/-- C5 (amended): for a listing with pairwise-distinct names, Scan
produces exactly one Entry per non-hidden subdirectory whose metadata
read succeeds, with Name the directory basename and Path the base
joined with the name; hidden names, non-directories and
failed-metadata entries never appear; and the result is ordered by
modification time descending (the comparison reads only ModTime, so
scores cannot affect the order). -/
theorem C5_scan_catalog (basePath : String) (now : Rat) (ds : List DirEnt)
    (hnd : (ds.map DirEnt.name).Nodup) (es : List Entry)
    (hes : ScanGo (.ok ds) basePath now = .ok es) :
    (∀ d ∈ ds, d.isDir = true → strStartsWith d.name "." = false →
      ∀ fi, d.info = some fi → es.countP (fun e => e.Name == d.name) = 1) ∧
    (∀ e ∈ es, ∃ d ∈ ds, e.Name = d.name ∧ e.Path = joinPath basePath d.name ∧
      d.isDir = true ∧ strStartsWith d.name "." = false ∧
      ∃ fi, d.info = some fi ∧ e.ModTime = fi.modTime) ∧
    es.Pairwise (fun a b => b.ModTime ≤ a.ModTime) := by
  have hes2 : es = sortByRecency (ds.filterMap (scanEntry basePath now)) := by
    have h := hes
    simp only [ScanGo, Except.ok.injEq] at h
    exact h.symm
  subst hes2
  refine ⟨?_, ?_, sortByRecency_sorted _⟩
  · intro d hd hdir hdot fi hfi
    have hperm := sortByRecency_perm (ds.filterMap (scanEntry basePath now))
    rw [hperm.countP_eq]
    exact countP_filterMap_scan basePath now ds hnd d hd hdir hdot fi hfi
  · intro e he
    have hperm := sortByRecency_perm (ds.filterMap (scanEntry basePath now))
    have he2 : e ∈ ds.filterMap (scanEntry basePath now) := hperm.mem_iff.mp he
    obtain ⟨d, hd, hdot, hdir, fi, hfi, hmk⟩ := mem_filterMap_scan he2
    refine ⟨d, hd, ?_, ?_, hdir, hdot, fi, hfi, ?_⟩
    · rw [hmk]; rfl
    · rw [hmk]; rfl
    · rw [hmk]; rfl

/-- C5 witness: a two-directory listing instantiating the
exactly-one-entry conjunct. -/
theorem C5_scan_catalog_witness :
    ([mkEntry "/w5" 6 "b" ⟨5⟩, mkEntry "/w5" 6 "a" ⟨3⟩].countP
      (fun e => e.Name == "a") = 1) :=
  (C5_scan_catalog "/w5" 6 [⟨"a", true, some ⟨3⟩⟩, ⟨"b", true, some ⟨5⟩⟩]
      (by decide) [mkEntry "/w5" 6 "b" ⟨5⟩, mkEntry "/w5" 6 "a" ⟨3⟩] rfl).1
    ⟨"a", true, some ⟨3⟩⟩ (List.mem_cons_self _ _) rfl (by decide) ⟨3⟩ rfl

/-- Stat oracle for the C6 counterexample: the dated candidate exists
as a plain file (IsDir = false), everything else is free. -/
def c6statFile (s : String) : StatRes :=
  if s = "/b6/2025-01-19-a-b" then .found false else .notExist

/-- The MkdirAll oracle that always succeeds. -/
def mkdirAlwaysOk : String → Bool := fun _ => true

/-- C6 counterexample: the claim says a collision is counted only when
the candidate already exists as a directory, but uniqueName probes
with os.Stat and treats any existing entry as a collision: with the
candidate present as a plain file, Create still falls through to the
-2 name. -/
theorem C6_counterexample :
    c6statFile "/b6/2025-01-19-a-b" = .found false ∧
    CreateGo c6statFile mkdirAlwaysOk "2025-01-19" "/b6" "a b" 5 =
      some "/b6/2025-01-19-a-b-2" := by
  constructor
  · decide
  · decide

/-- C6 (amended): Create trims surrounding whitespace, replaces
spaces with dashes, puts the YYYY-MM-DD date and a dash in front, and
on collision appends -2, -3, ... until a candidate is found whose
stat reports not-exist — a collision being any candidate whose stat
does not report not-exist (an existing file or directory, or a failed
stat), not only existing directories.  In particular create of
a-space-b on 2025-01-19 yields basename 2025-01-19-a-b on a free
filesystem, and 2025-01-19-a-b-2 when the first candidate is an
existing directory. -/
theorem C6_create_naming (stat : String → StatRes) (mkdirOk : String → Bool)
    (base : String) (hmk : ∀ p, mkdirOk p = true) :
    (∀ rawName k fuel,
      (∀ i, i < k →
        statIsNotExist (stat (joinPath base
          (candidateName ("2025-01-19" ++ "-" ++ goReplaceSpaces (goTrim rawName)) i))) = false) →
      statIsNotExist (stat (joinPath base
        (candidateName ("2025-01-19" ++ "-" ++ goReplaceSpaces (goTrim rawName)) k))) = true →
      k < fuel →
      CreateGo stat mkdirOk "2025-01-19" base rawName fuel =
        some (joinPath base
          (candidateName ("2025-01-19" ++ "-" ++ goReplaceSpaces (goTrim rawName)) k))) ∧
    (statIsNotExist (stat (joinPath base "2025-01-19-a-b")) = true →
      ∀ fuel, 0 < fuel →
      CreateGo stat mkdirOk "2025-01-19" base "a b" fuel =
        some (joinPath base "2025-01-19-a-b")) ∧
    (∀ stat2, stat2 (joinPath base "2025-01-19-a-b") = .found true →
      statIsNotExist (stat2 (joinPath base "2025-01-19-a-b-2")) = true →
      ∀ fuel, 1 < fuel →
      CreateGo stat2 mkdirOk "2025-01-19" base "a b" fuel =
        some (joinPath base "2025-01-19-a-b-2")) := by
  have hgen : ∀ (st : String → StatRes) rawName k fuel,
      (∀ i, i < k →
        statIsNotExist (st (joinPath base
          (candidateName ("2025-01-19" ++ "-" ++ goReplaceSpaces (goTrim rawName)) i))) = false) →
      statIsNotExist (st (joinPath base
        (candidateName ("2025-01-19" ++ "-" ++ goReplaceSpaces (goTrim rawName)) k))) = true →
      k < fuel →
      CreateGo st mkdirOk "2025-01-19" base rawName fuel =
        some (joinPath base
          (candidateName ("2025-01-19" ++ "-" ++ goReplaceSpaces (goTrim rawName)) k)) := by
    intro st rawName k fuel htaken hfree hlt
    have hu := uniqueNameGo_first st base
      ("2025-01-19" ++ "-" ++ goReplaceSpaces (goTrim rawName)) k fuel htaken hfree hlt
    simp only [CreateGo, hu, hmk, if_true]
  refine ⟨fun rawName k fuel => hgen stat rawName k fuel, ?_, ?_⟩
  · intro hfree fuel hfuel
    have h0 : ∀ i, i < 0 →
        statIsNotExist (stat (joinPath base
          (candidateName ("2025-01-19" ++ "-" ++ goReplaceSpaces (goTrim "a b")) i))) = false := by
      intro i hi
      omega
    have hf : statIsNotExist (stat (joinPath base
        (candidateName ("2025-01-19" ++ "-" ++ goReplaceSpaces (goTrim "a b")) 0))) = true := by
      have heq : candidateName ("2025-01-19" ++ "-" ++ goReplaceSpaces (goTrim "a b")) 0 =
          "2025-01-19-a-b" := by decide
      rw [heq]
      exact hfree
    have h := hgen stat "a b" 0 fuel h0 hf hfuel
    rw [show candidateName ("2025-01-19" ++ "-" ++ goReplaceSpaces (goTrim "a b")) 0 =
      "2025-01-19-a-b" from by decide] at h
    exact h
  · intro stat2 htaken hfree fuel hfuel
    have h0 : ∀ i, i < 1 →
        statIsNotExist (stat2 (joinPath base
          (candidateName ("2025-01-19" ++ "-" ++ goReplaceSpaces (goTrim "a b")) i))) = false := by
      intro i hi
      have hi0 : i = 0 := by omega
      subst hi0
      rw [show candidateName ("2025-01-19" ++ "-" ++ goReplaceSpaces (goTrim "a b")) 0 =
        "2025-01-19-a-b" from by decide, htaken]
      rfl
    have hf : statIsNotExist (stat2 (joinPath base
        (candidateName ("2025-01-19" ++ "-" ++ goReplaceSpaces (goTrim "a b")) 1))) = true := by
      rw [show candidateName ("2025-01-19" ++ "-" ++ goReplaceSpaces (goTrim "a b")) 1 =
        "2025-01-19-a-b-2" from by decide]
      exact hfree
    have h := hgen stat2 "a b" 1 fuel h0 hf hfuel
    rw [show candidateName ("2025-01-19" ++ "-" ++ goReplaceSpaces (goTrim "a b")) 1 =
      "2025-01-19-a-b-2" from by decide] at h
    exact h

/-- Stat oracle for the C6 witness, first call: everything free. -/
def c6statFree : String → StatRes := fun _ => .notExist

/-- Stat oracle for the C6 witness, second call: the dated name now
exists as a directory. -/
def c6statDir (s : String) : StatRes :=
  if s = "/b6/2025-01-19-a-b" then .found true else .notExist

/-- C6 witness: both calls of the claimed example. -/
theorem C6_create_naming_witness :
    CreateGo c6statFree mkdirAlwaysOk "2025-01-19" "/b6" "a b" 3 =
      some "/b6/2025-01-19-a-b" ∧
    CreateGo c6statDir mkdirAlwaysOk "2025-01-19" "/b6" "a b" 3 =
      some "/b6/2025-01-19-a-b-2" :=
  ⟨(C6_create_naming c6statFree mkdirAlwaysOk "/b6" (fun _ => rfl)).2.1 (by decide) 3
      (by decide),
   (C6_create_naming c6statDir mkdirAlwaysOk "/b6" (fun _ => rfl)).2.2 c6statDir
      (by decide) (by decide) 3 (by decide)⟩

/-- C8 counterexample: on the perfect square 2^26 — whose exact (and
IEEE-754, since perfect squares of this size are represented and
rounded exactly) square root is 2^13 = 8192 — the ten-iteration
Newton loop started at x/2 has only descended to at least 2^15, so
the code's sqrt exceeds the true square root by at least 24576, far
beyond any rounding tolerance; the fixed iteration count cannot track
sqrt for large inputs regardless of float rounding. -/
theorem C8_counterexample :
    ((2 : Rat) ^ 13) * ((2 : Rat) ^ 13) = (2 : Rat) ^ 26 ∧
    (24576 : Rat) ≤ sqrtGo ((2 : Rat) ^ 26) - (2 : Rat) ^ 13 := by
  constructor
  · norm_num
  · have hx : (0 : Rat) ≤ (2 : Rat) ^ 26 := by positivity
    have h1 : ((2 : Rat) ^ 26 / 2) / 2 ^ 10 ≤
        newtonLoop ((2 : Rat) ^ 26) 10 ((2 : Rat) ^ 26 / 2) :=
      (newtonLoop_lower ((2 : Rat) ^ 26) hx 10 ((2 : Rat) ^ 26 / 2) (by positivity)).1
    have hs : sqrtGo ((2 : Rat) ^ 26) = newtonLoop ((2 : Rat) ^ 26) 10 ((2 : Rat) ^ 26 / 2) := by
      rw [sqrtGo, if_neg (by norm_num), if_neg (by norm_num)]
    rw [hs]
    have h2 : ((2 : Rat) ^ 26 / 2) / 2 ^ 10 = (32768 : Rat) := by norm_num
    have h3 : (2 : Rat) ^ 13 = (8192 : Rat) := by norm_num
    rw [h2] at h1
    linarith

/-- C8 (amended): every entry produced by Scan carries the score
3 / newtonSqrt(hoursSinceModification + 1), plus a flat 2 exactly
when the name matches the four-digits dash two-digits dash two-digits
dash pattern — where newtonSqrt is the code's own fixed ten-step
Newton iteration, which does not match the IEEE-754 square root
within rounding tolerance on large inputs (see the counterexample). -/
theorem C8_score_formula (basePath : String) (now : Rat) (ds : List DirEnt)
    (es : List Entry) (hes : ScanGo (.ok ds) basePath now = .ok es) :
    ∀ e ∈ es, e.BaseScore =
      (if dateStamped e.Name then 3 / sqrtGo (now - e.ModTime + 1) + 2
       else 3 / sqrtGo (now - e.ModTime + 1)) := by
  have hes2 : es = sortByRecency (ds.filterMap (scanEntry basePath now)) := by
    have h := hes
    simp only [ScanGo, Except.ok.injEq] at h
    exact h.symm
  subst hes2
  intro e he
  have hperm := sortByRecency_perm (ds.filterMap (scanEntry basePath now))
  have he2 : e ∈ ds.filterMap (scanEntry basePath now) := hperm.mem_iff.mp he
  obtain ⟨d, _, _, _, fi, _, hmk⟩ := mem_filterMap_scan he2
  subst hmk
  simp only [mkEntry]

/-- C8 witness: the score formula instantiated at a concrete scanned
entry. -/
theorem C8_score_formula_witness :
    (mkEntry "/w8" 5 "proj" ⟨5⟩).BaseScore =
      (if dateStamped (mkEntry "/w8" 5 "proj" ⟨5⟩).Name then
        3 / sqrtGo (5 - (mkEntry "/w8" 5 "proj" ⟨5⟩).ModTime + 1) + 2
       else 3 / sqrtGo (5 - (mkEntry "/w8" 5 "proj" ⟨5⟩).ModTime + 1)) :=
  C8_score_formula "/w8" 5 [⟨"proj", true, some ⟨5⟩⟩]
    [mkEntry "/w8" 5 "proj" ⟨5⟩] rfl (mkEntry "/w8" 5 "proj" ⟨5⟩)
    (List.mem_cons_self _ _)

/-- A string built from a non-empty character list is not the empty
string. -/
theorem strMk_ne_empty {l : List Char} (h : l ≠ []) : (⟨l⟩ : String) ≠ "" := by
  intro hcon
  apply h
  have h2 := congrArg String.data hcon
  simpa using h2

/-- The SSH pattern accepts every explicitly shaped input: host
non-empty and colon-free (slashes allowed), user and repo non-empty
and slash-free. -/
theorem sshParse_accepts (h u r : List Char) (hh : h ≠ []) (hch : ':' ∉ h)
    (hu : u ≠ []) (hcu : '/' ∉ u) (hr : r ≠ []) (hcr : '/' ∉ r) :
    sshParse (['g', 'i', 't', '@'] ++ (h ++ ':' :: (u ++ '/' :: r))) = some (h, u, r) := by
  have ht : (['g', 'i', 't', '@'] ++ (h ++ ':' :: (u ++ '/' :: r))).take 4 =
      ['g', 'i', 't', '@'] := rfl
  have hd : (['g', 'i', 't', '@'] ++ (h ++ ':' :: (u ++ '/' :: r))).drop 4 =
      h ++ ':' :: (u ++ '/' :: r) := rfl
  unfold sshParse
  rw [if_pos ht, hd, splitFirst_append ':' h (u ++ '/' :: r) hch]
  simp only [if_neg hh]
  rw [splitFirst_append '/' u r hcu]
  simp only [if_neg hu, if_neg hr]
  rw [if_neg hcr]

/-- The HTTPS pattern accepts every explicitly shaped remainder after
the scheme: host, user, repo non-empty and slash-free. -/
theorem httpParse_accepts (h u r rest : List Char)
    (hst : stripScheme rest = some (h ++ '/' :: (u ++ '/' :: r)))
    (hh : h ≠ []) (hch : '/' ∉ h)
    (hu : u ≠ []) (hcu : '/' ∉ u) (hr : r ≠ []) (hcr : '/' ∉ r) :
    httpParse rest = some (h, u, r) := by
  unfold httpParse
  simp only [hst]
  simp only [splitFirst_append '/' h (u ++ '/' :: r) hch]
  simp only [if_neg hh]
  simp only [splitFirst_append '/' u r hcu]
  simp only [if_neg hu, if_neg hr, if_neg hcr]

/-- Every successful SSH parse decomposes its input into the literal
git@ marker, a non-empty colon-free host (which MAY contain slashes),
a colon, a non-empty slash-free user, a slash and a non-empty
slash-free repo. -/
theorem sshParse_sound {l h u r : List Char} (hp : sshParse l = some (h, u, r)) :
    l = ['g', 'i', 't', '@'] ++ (h ++ ':' :: (u ++ '/' :: r)) ∧
    h ≠ [] ∧ ':' ∉ h ∧ u ≠ [] ∧ '/' ∉ u ∧ r ≠ [] ∧ '/' ∉ r := by
  unfold sshParse at hp
  by_cases htake : l.take 4 = ['g', 'i', 't', '@']
  · simp only [if_pos htake] at hp
    rcases hsp1 : splitFirst ':' (l.drop 4) with _ | ⟨h1, t⟩
    · simp [hsp1] at hp
    · simp only [hsp1] at hp
      by_cases hne1 : h1 = []
      · simp [hne1] at hp
      · simp only [if_neg hne1] at hp
        rcases hsp2 : splitFirst '/' t with _ | ⟨u1, r1⟩
        · simp [hsp2] at hp
        · simp only [hsp2] at hp
          by_cases hneu : u1 = []
          · simp [hneu] at hp
          · simp only [if_neg hneu] at hp
            by_cases hner : r1 = []
            · simp [hner] at hp
            · simp only [if_neg hner] at hp
              by_cases hslr : '/' ∈ r1
              · simp [hslr] at hp
              · simp only [if_neg hslr, Option.some.injEq, Prod.mk.injEq] at hp
                obtain ⟨hh1, hu1, hr1⟩ := hp
                subst hh1
                subst hu1
                subst hr1
                obtain ⟨hd4, hch⟩ := splitFirst_eq ':' (l.drop 4) h1 t hsp1
                obtain ⟨ht2, hcu⟩ := splitFirst_eq '/' t u1 r1 hsp2
                subst ht2
                have hl : l = l.take 4 ++ l.drop 4 := (List.take_append_drop 4 l).symm
                rw [htake, hd4] at hl
                exact ⟨hl, hne1, hch, hneu, hcu, hner, hslr⟩
  · simp [if_neg htake] at hp

/-- Every successful HTTPS parse decomposes the post-scheme remainder
into non-empty slash-free host, user and repo. -/
theorem httpParse_sound {l h u r : List Char} (hp : httpParse l = some (h, u, r)) :
    (∃ rest, stripScheme l = some rest ∧ rest = h ++ '/' :: (u ++ '/' :: r)) ∧
    h ≠ [] ∧ '/' ∉ h ∧ u ≠ [] ∧ '/' ∉ u ∧ r ≠ [] ∧ '/' ∉ r := by
  unfold httpParse at hp
  rcases hst : stripScheme l with _ | rest
  · simp [hst] at hp
  · simp only [hst] at hp
    rcases hsp1 : splitFirst '/' rest with _ | ⟨h1, t⟩
    · simp [hsp1] at hp
    · simp only [hsp1] at hp
      by_cases hne1 : h1 = []
      · simp [hne1] at hp
      · simp only [if_neg hne1] at hp
        rcases hsp2 : splitFirst '/' t with _ | ⟨u1, r1⟩
        · simp [hsp2] at hp
        · simp only [hsp2] at hp
          by_cases hneu : u1 = []
          · simp [hneu] at hp
          · simp only [if_neg hneu] at hp
            by_cases hner : r1 = []
            · simp [hner] at hp
            · simp only [if_neg hner] at hp
              by_cases hslr : '/' ∈ r1
              · simp [hslr] at hp
              · simp only [if_neg hslr, Option.some.injEq, Prod.mk.injEq] at hp
                obtain ⟨hh1, hu1, hr1⟩ := hp
                subst hh1
                subst hu1
                subst hr1
                obtain ⟨hrest, hch⟩ := splitFirst_eq '/' rest h1 t hsp1
                obtain ⟨ht2, hcu⟩ := splitFirst_eq '/' t u1 r1 hsp2
                subst ht2
                exact ⟨⟨rest, rfl, hrest⟩, hne1, hch, hneu, hcu, hner, hslr⟩

/-- C7 counterexample: the SSH host group of the RE2 pattern excludes
only colons, so an input whose host part contains a slash — outside
the two claimed shapes — is still accepted: parsing git@a/b:c/d
succeeds with host a/b. -/
theorem C7_counterexample :
    ParseGitURL "git@a/b:c/d" = some ⟨"c", "d", "a/b"⟩ ∧ '/' ∈ "a/b".data := by
  constructor
  · decide
  · decide

/-- C7 (amended): after stripping one trailing .git, ParseGitURL
accepts exactly the shapes git@HOST:USER/REPO (HOST non-empty and
colon-free but possibly containing slashes; USER, REPO non-empty and
slash-free) and http(s)://HOST/USER/REPO (HOST, USER, REPO non-empty
and slash-free), and fails on everything else; the three concrete
examples of the claim behave as stated. -/
theorem C7_parse_shapes :
    (ParseGitURL "git@github.com:tobi/try.git" = some ⟨"tobi", "try", "github.com"⟩) ∧
    (ParseGitURL "https://gitlab.com/user/project" = some ⟨"user", "project", "gitlab.com"⟩) ∧
    (ParseGitURL "not-a-url" = none) ∧
    (∀ h u r : List Char, h ≠ [] → ':' ∉ h → u ≠ [] → '/' ∉ u → r ≠ [] → '/' ∉ r →
      sshParse (['g', 'i', 't', '@'] ++ (h ++ ':' :: (u ++ '/' :: r))) = some (h, u, r)) ∧
    (∀ h u r rest : List Char,
      stripScheme rest = some (h ++ '/' :: (u ++ '/' :: r)) →
      h ≠ [] → '/' ∉ h → u ≠ [] → '/' ∉ u → r ≠ [] → '/' ∉ r →
      httpParse rest = some (h, u, r)) ∧
    (∀ url p, ParseGitURL url = some p →
      p.User ≠ "" ∧ p.Repo ≠ "" ∧ p.Host ≠ "" ∧
      '/' ∉ p.User.data ∧ '/' ∉ p.Repo.data ∧
      ((trimDotGit url.data =
          ['g', 'i', 't', '@'] ++ (p.Host.data ++ ':' :: (p.User.data ++ '/' :: p.Repo.data)) ∧
        ':' ∉ p.Host.data) ∨
       (∃ rest, stripScheme (trimDotGit url.data) = some rest ∧
         rest = p.Host.data ++ '/' :: (p.User.data ++ '/' :: p.Repo.data) ∧
         '/' ∉ p.Host.data))) := by
  refine ⟨by decide, by decide, by decide,
    fun h u r hh hch hu hcu hr hcr => sshParse_accepts h u r hh hch hu hcu hr hcr,
    fun h u r rest hst hh hch hu hcu hr hcr =>
      httpParse_accepts h u r rest hst hh hch hu hcu hr hcr, ?_⟩
  intro url p hp
  simp only [ParseGitURL] at hp
  rcases hssh : sshParse (trimDotGit url.data) with _ | ⟨h, u, r⟩
  · rw [hssh] at hp
    rcases hhttp : httpParse (trimDotGit url.data) with _ | ⟨h, u, r⟩
    · rw [hhttp] at hp
      exact Option.noConfusion hp
    · rw [hhttp] at hp
      simp only [Option.some.injEq] at hp
      subst hp
      obtain ⟨⟨rest, hst, hrest⟩, hh, hch, hu, hcu, hr, hcr⟩ := httpParse_sound hhttp
      exact ⟨strMk_ne_empty hu, strMk_ne_empty hr, strMk_ne_empty hh, hcu, hcr,
        Or.inr ⟨rest, hst, hrest, hch⟩⟩
  · rw [hssh] at hp
    simp only [Option.some.injEq] at hp
    subst hp
    obtain ⟨hl, hh, hch, hu, hcu, hr, hcr⟩ := sshParse_sound hssh
    exact ⟨strMk_ne_empty hu, strMk_ne_empty hr, strMk_ne_empty hh, hcu, hcr,
      Or.inl ⟨hl, hch⟩⟩

/-- C7 witness: the SSH acceptance conjunct at concrete components. -/
theorem C7_parse_shapes_witness :
    sshParse (['g', 'i', 't', '@'] ++ (['h', 'o'] ++ ':' :: (['u'] ++ '/' :: ['r']))) =
      some (['h', 'o'], ['u'], ['r']) :=
  C7_parse_shapes.2.2.2.1 ['h', 'o'] ['u'] ['r'] (by decide) (by decide) (by decide)
    (by decide) (by decide) (by decide)

end GoTry
